import Mathlib

/-!
Verification of the input-resolution and tokenization core of the `clin`
package (file `clin.go`).

Modelling conventions:
* A Go byte is a `Nat` (values are < 256 in practice); Go `[]byte` and
  `string` values are `List Nat` (Go strings are immutable byte sequences).
* `Input` mirrors the Go struct `Input`.  The field `Stream` (an
  `io.Reader` handle in Go) is modelled by the sequence of bytes the
  reader will deliver before it reports end-of-stream, together with a
  flag recording whether the reads end with a non-EOF I/O error instead
  of a normal EOF.  Reading is destructive: operations that drain the
  reader return an `Input` whose stream content is empty.
* `scanArgs` mirrors the split function `Input.scanArgs`; its Go result
  `(advance int, token []byte, err error)` is encoded by `ScanResult`:
  `(0, nil, nil)` is `.more`, `(adv, tok, nil)` is `.tok adv tok`, and
  `(0, tok, bufio.ErrFinalToken)` is `.final tok`.
* The `bufio.Scanner` loop inside `Input.Args` is modelled by `scanLoopF`,
  which repeatedly applies the split function to all bytes not yet
  consumed with `atEOF = true`.  This is faithful because the scanner
  feeds the split function ever longer prefixes of the remaining bytes
  until it stops returning `(0, nil, nil)`; the leftmost delimiter match
  found in a prefix is the leftmost match in the whole remaining data, so
  the emitted token and advance are the same, and once the reader is
  exhausted (EOF or read error: `bufio` passes `atEOF = s.err != nil`)
  the split function sees exactly the remaining bytes with
  `atEOF = true`.  The scanner's buffer is idealized as unbounded
  (`bufio.MaxScanTokenSize` is not modelled).  The recursion uses
  explicit fuel; `remaining.length + 1` calls always suffice because
  every emitted token consumes at least one byte.
-/

namespace Clin

/-- Go bytes: `[]byte` and `string` values. -/
abbrev Bytes := List Nat

/-- The fallback stream handle (`io.Reader`): the bytes it will still
deliver, and whether delivery ends with a non-EOF read error. -/
structure Stream where
  data : Bytes
  ioErr : Bool
deriving DecidableEq

/-- The Go struct `Input` (clin.go lines 165-179). -/
structure Input where
  Stream : Stream
  Literal : Bool
  ArgsDelim : Bytes
  ReadDelim : Bytes
  skipToken : Bool
deriving DecidableEq

/-- The package-level default configuration `input` (clin.go lines
183-188).  The content of `os.Stdin` depends on the environment; it is
modelled as an empty error-free stream here, which no theorem relies
on. -/
def input : Input :=
  { Stream := ⟨[], false⟩, Literal := false
    ArgsDelim := [10], ReadDelim := [32], skipToken := false }

/-- `Default` returns an `Input` with default configuration (a Go
struct-value copy of the package variable `input`). -/
def Default : Input := input

/-- Result of one call to a `bufio.SplitFunc`, restricted to the shapes
`scanArgs` and `bufio.ScanRunes` actually return. -/
inductive ScanResult where
  /-- `(0, nil, nil)`: request more data / stop at EOF. -/
  | more : ScanResult
  /-- `(adv, tok, nil)`: consume `adv` bytes, emit token `tok`. -/
  | tok (adv : Nat) (t : Bytes) : ScanResult
  /-- `(0, tok, bufio.ErrFinalToken)`: emit `tok` as the last token. -/
  | final (t : Bytes) : ScanResult
deriving DecidableEq

/-- Byte-wise prefix test (the comparison `string(delim) == string(data[i:i+n])`
restricted to in-range slices). -/
def hasPrefix : Bytes → Bytes → Bool
  | a :: as, b :: bs => hasPrefix as bs && a == b
  | [], _ => true
  | _, [] => false

/-- Leftmost position `i` at which `delim` occurs in `data`, mirroring the
search loop `for i := 0; i <= len(data)-n; i++` of `scanArgs` for a
non-empty `delim` (a match needs `i + n ≤ len(data)`, which holds exactly
when `delim` is a prefix of `data` dropped by `i`). -/
def findDelim (delim : Bytes) : Bytes → Option Nat
  | [] => none
  | b :: rest =>
    if hasPrefix delim (b :: rest) then some 0
    else (findDelim delim rest).map (· + 1)

/-- Range accepted for the second byte of a multi-byte UTF-8 sequence,
given its leading byte; `none` when the byte cannot lead a sequence
(continuation bytes, overlong leads 0xC0/0xC1, and bytes ≥ 0xF5).
Mirrors the `first`/`acceptRanges` tables of Go `unicode/utf8`. -/
def acceptRange (b0 : Nat) : Option (Nat × Nat) :=
  if b0 ≤ 0xC1 then none
  else if b0 ≤ 0xDF then some (0x80, 0xBF)
  else if b0 = 0xE0 then some (0xA0, 0xBF)
  else if b0 ≤ 0xEC then some (0x80, 0xBF)
  else if b0 = 0xED then some (0x80, 0x9F)
  else if b0 ≤ 0xEF then some (0x80, 0xBF)
  else if b0 = 0xF0 then some (0x90, 0xBF)
  else if b0 ≤ 0xF3 then some (0x80, 0xBF)
  else if b0 = 0xF4 then some (0x80, 0x8F)
  else none

/-- Declared sequence length for a multi-byte leading byte. -/
def leaderLen (b0 : Nat) : Nat :=
  if b0 ≤ 0xDF then 2 else if b0 ≤ 0xEF then 3 else 4

/-- Width (in bytes) of the rune decoded at the head of `data` by Go
`utf8.DecodeRune`; `1` for every erroneous encoding, `0` for empty
input. -/
def decodeRuneWidth : Bytes → Nat
  | [] => 0
  | b0 :: rest =>
    if b0 < 0x80 then 1
    else
      match acceptRange b0 with
      | none => 1
      | some lohi =>
        match rest with
        | [] => 1
        | b1 :: rest1 =>
          if b1 < lohi.1 ∨ lohi.2 < b1 then 1
          else if b0 ≤ 0xDF then 2
          else
            match rest1 with
            | [] => 1
            | b2 :: rest2 =>
              if b2 < 0x80 ∨ 0xBF < b2 then 1
              else if b0 ≤ 0xEF then 3
              else
                match rest2 with
                | [] => 1
                | b3 :: _ => if b3 < 0x80 ∨ 0xBF < b3 then 1 else 4

/-- Go `utf8.FullRune`: the data begins with a full (possibly invalid)
UTF-8 encoding; `false` only for a proper prefix of a valid encoding. -/
def utf8FullRune : Bytes → Bool
  | [] => false
  | b0 :: rest =>
    if b0 < 0x80 then true
    else
      match acceptRange b0 with
      | none => true
      | some lohi =>
        if leaderLen b0 ≤ (b0 :: rest).length then true
        else
          match rest with
          | [] => false
          | b1 :: rest1 =>
            if b1 < lohi.1 ∨ lohi.2 < b1 then true
            else
              match rest1 with
              | [] => false
              | b2 :: _ => decide (b2 < 0x80 ∨ 0xBF < b2)

/-- The UTF-8 encoding of U+FFFD, emitted by `bufio.ScanRunes` for each
erroneous byte. -/
def errorRune : Bytes := [0xEF, 0xBF, 0xBD]

/-- Go `bufio.ScanRunes`.  (`bufio.Scanner` only calls a split function
with empty data when the reader is exhausted, so the empty case returns
`.more`, which stops the scan.) -/
def scanRunes (data : Bytes) (atEOF : Bool) : ScanResult :=
  match data with
  | [] => ScanResult.more
  | b0 :: _ =>
    if b0 < 0x80 then ScanResult.tok 1 [b0]
    else if 1 < decodeRuneWidth data then
      ScanResult.tok (decodeRuneWidth data) (data.take (decodeRuneWidth data))
    else if atEOF = false ∧ utf8FullRune data = false then ScanResult.more
    else ScanResult.tok 1 errorRune

/-- The split function `Input.scanArgs` (clin.go lines 267-296). -/
def Input.scanArgs (inp : Input) (data : Bytes) (atEOF : Bool) :
    ScanResult × Input :=
  let n := inp.ArgsDelim.length
  if n = 0 then
    -- Split on each UTF-8 rune if ArgsDelim is empty.
    (scanRunes data atEOF, inp)
  else
    match findDelim inp.ArgsDelim data with
    | some i =>
      -- If ArgsDelim is a simple newline, also remove a trailing '\r'.
      let j :=
        if 0 < i ∧ data.getD (i - 1) 0 = 13 ∧ n = 1 ∧ inp.ArgsDelim.getD 0 0 = 10
        then i - 1 else i
      (ScanResult.tok (i + n) (data.take j), inp)
    | none =>
      if atEOF = false then (ScanResult.more, inp)
      else (ScanResult.final data, { inp with skipToken := data.isEmpty })

/-- The `bufio.Scanner` loop of `Input.Args` (clin.go lines 219-223),
driven with explicit fuel: apply the split function to the bytes not yet
consumed, append the emitted token unless `skipToken` is set, stop on
`(0, nil, nil)` at EOF or after `bufio.ErrFinalToken`. -/
def scanLoopF : Nat → Input → Bytes → List Bytes × Input
  | 0, inp, _ => ([], inp)
  | fuel + 1, inp, remaining =>
    match inp.scanArgs remaining true with
    | (ScanResult.more, inp') => ([], inp')
    | (ScanResult.tok adv t, inp') =>
      let r := scanLoopF fuel inp' (remaining.drop adv)
      (if inp'.skipToken then r.1 else t :: r.1, r.2)
    | (ScanResult.final t, inp') =>
      (if inp'.skipToken then [] else [t], inp')

/-- The method `Input.Args` (clin.go lines 212-227): return `args` if
non-empty, otherwise scan the fallback stream (draining it). -/
def Input.Args (inp : Input) (args : List Bytes) : List Bytes × Input :=
  if args.length = 0 then
    let r := scanLoopF (inp.Stream.data.length + 1)
      { inp with skipToken := false } inp.Stream.data
    (r.1, { r.2 with Stream := ⟨[], inp.Stream.ioErr⟩ })
  else (args, inp)

/-- The method `Input.Fields` (clin.go lines 230-238): the append loop
that keeps the non-empty elements of `args`. -/
def Input.Fields (_inp : Input) (args : List Bytes) : List Bytes :=
  args.foldl (fun a s => if s ≠ [] then a ++ [s] else a) []

/-- The possible results of `Input.Reader`: the fallback stream handle
itself, a reader over an opened file's content, or a
`strings.NewReader`. -/
inductive ReaderResult where
  | stream : ReaderResult
  | file (content : Bytes) : ReaderResult
  | strReader (s : Bytes) : ReaderResult
deriving DecidableEq

/-- The method `Input.Reader` (clin.go lines 246-265).  The file system
is an opaque parameter `fs`: `fs p = some c` means opening path `p`
succeeds with content `c`, `fs p = none` means `os.Open` fails. -/
def Input.Reader (inp : Input) (fs : Bytes → Option Bytes)
    (args : List Bytes) : ReaderResult :=
  match args with
  | [] => ReaderResult.stream
  | [a] =>
    if inp.Literal = false then
      match fs a with
      | some c => ReaderResult.file c
      | none => ReaderResult.strReader a
    else ReaderResult.strReader a
  | _ => ReaderResult.strReader (List.intercalate inp.ReadDelim args)

/-- Content of the byte stream a `ReaderResult` reads. -/
def readerContent (inp : Input) : ReaderResult → Bytes
  | ReaderResult.stream => inp.Stream.data
  | ReaderResult.file c => c
  | ReaderResult.strReader s => s

/-- An `Input` whose fallback stream holds `s` and whose token delimiter
is `d` (all other fields as in the default configuration). -/
def mkInput (d s : Bytes) : Input :=
  { Stream := ⟨s, false⟩, Literal := false
    ArgsDelim := d, ReadDelim := [32], skipToken := false }

/-- Tokens produced by `Args []` over a fallback stream holding `s`,
with delimiter `d`. -/
def tokenize (d s : Bytes) : List Bytes :=
  ((mkInput d s).Args []).1

/-! ### Specification-side definitions

The spec (§4.2) describes the stream as split into a sequence of
delimited tokens, of which the final one — "computed" at the terminal
flush — is discarded exactly when it is empty.  `splitAll` produces that
full computed sequence (same boundary rules as `scanArgs`, including the
carriage-return exclusion), and `dropFinalEmpty` performs the
suppression the spec describes; the refinement theorems compare the code
path `tokenize` against their composition. -/

/-- All delimited tokens of `s`, including the final token after the
last delimiter occurrence (possibly empty), with the same boundary rule
as `scanArgs`.  Meaningful for non-empty `delim`; fuel-driven. -/
def splitAllF : Nat → Bytes → Bytes → List Bytes
  | 0, _, s => [s]
  | fuel + 1, delim, s =>
    match findDelim delim s with
    | none => [s]
    | some i =>
      let n := delim.length
      let j :=
        if 0 < i ∧ s.getD (i - 1) 0 = 13 ∧ n = 1 ∧ delim.getD 0 0 = 10
        then i - 1 else i
      s.take j :: splitAllF fuel delim (s.drop (i + n))

/-- All delimited tokens of `s` for delimiter `delim`, the final
(possibly empty) one included. -/
def splitAll (delim s : Bytes) : List Bytes :=
  splitAllF (s.length + 1) delim s

/-- Discard the final token of a token sequence when it is empty; keep
every other token (empty or not) in order. -/
def dropFinalEmpty : List Bytes → List Bytes
  | [] => []
  | [t] => if t = [] then [] else [t]
  | t :: t' :: ts => t :: dropFinalEmpty (t' :: ts)

/-- `c` is a Unicode scalar value (a code point that has a UTF-8
encoding): below U+110000 and not a surrogate. -/
def ValidScalar (c : Nat) : Prop :=
  c < 0x110000 ∧ ¬ (0xD800 ≤ c ∧ c ≤ 0xDFFF)

instance : DecidablePred ValidScalar := fun c => by
  unfold ValidScalar; infer_instance

/-- The UTF-8 encoding of a Unicode scalar value (Go
`utf8.EncodeRune` on valid scalars). -/
def utf8Encode (c : Nat) : Bytes :=
  if c < 0x80 then [c]
  else if c < 0x800 then
    [0xC0 + c / 0x40, 0x80 + c % 0x40]
  else if c < 0x10000 then
    [0xE0 + c / 0x1000, 0x80 + c / 0x40 % 0x40, 0x80 + c % 0x40]
  else
    [0xF0 + c / 0x40000, 0x80 + c / 0x1000 % 0x40,
      0x80 + c / 0x40 % 0x40, 0x80 + c % 0x40]

/-! ### Go value semantics of copying an `Input`

Claim C9 is about what a Go struct assignment `b := a` shares between
the two values.  A Go slice is a header pointing at a backing array;
copying the struct copies the header, not the array.  `HeapBytes` models
the allocated byte arrays (index = allocation identity), `ByteSlice` a
slice header (reduced to the identity of its backing array), and
`InputV` the Go struct `Input` at this level: `Stream` is an opaque
reader handle, `Literal`/`skipToken` are scalars stored inline, and
`ArgsDelim`/`ReadDelim` are slice headers. -/

/-- The allocated byte arrays: index = allocation identity. -/
abbrev HeapBytes := List Bytes

/-- A Go slice header, reduced to the identity of its backing array. -/
structure ByteSlice where
  arr : Nat
deriving DecidableEq

/-- The Go struct `Input`, at the resolution of what a struct assignment
copies: scalar fields inline, slice fields as headers, `Stream` as a
handle. -/
structure InputV where
  Stream : Nat
  Literal : Bool
  ArgsDelim : ByteSlice
  ReadDelim : ByteSlice
  skipToken : Bool
deriving DecidableEq

/-- The bytes visible through a slice header. -/
def HeapBytes.read (h : HeapBytes) (s : ByteSlice) : Bytes :=
  h.getD s.arr []

/-- In-place element mutation `s[i] = v` through a slice header. -/
def HeapBytes.writeByte (h : HeapBytes) (s : ByteSlice) (i v : Nat) :
    HeapBytes :=
  h.set s.arr ((h.getD s.arr []).set i v)

/-- Go struct assignment `b := a`: copies the field values (scalars,
slice headers, the `Stream` handle) — not the backing arrays. -/
def copyInput (a : InputV) : InputV := a

/-- A concrete `InputV` whose slice fields point at the arrays `0` and
`1` of a two-array heap (the shape `Default()` produces: the copy's
slice headers point at the same arrays as the original's). -/
def inV : InputV :=
  { Stream := 0, Literal := false, ArgsDelim := ⟨0⟩, ReadDelim := ⟨1⟩
    skipToken := false }

/-! ### Helper lemmas -/

lemma getD_set_ne {α : Type} (d : α) :
    ∀ (l : List α) (i j : Nat) (x : α), i ≠ j →
      (l.set i x).getD j d = l.getD j d := by
  intro l
  induction l with
  | nil => intro i j x _; simp
  | cons a t ih =>
    intro i j x hij
    cases i with
    | zero =>
      cases j with
      | zero => exact absurd rfl hij
      | succ j => simp [List.set]
    | succ i =>
      cases j with
      | zero => simp [List.set]
      | succ j =>
        simp only [List.set, List.getD_cons_succ]
        exact ih i j x (fun h => hij (by rw [h]))

lemma fields_foldl (args : List Bytes) :
    ∀ acc : List Bytes,
      args.foldl (fun a s => if s ≠ [] then a ++ [s] else a) acc
        = acc ++ args.filter (fun s => decide (s ≠ [])) := by
  induction args with
  | nil => intro acc; simp
  | cons s t ih =>
    intro acc
    rw [List.foldl_cons, List.filter_cons]
    by_cases hs : s = []
    · subst hs
      rw [if_neg (fun h => h rfl), if_neg (by simp)]
      exact ih acc
    · rw [if_pos hs, if_pos (by simpa using hs), ih (acc ++ [s]),
        List.append_assoc]
      rfl

lemma intercalate_pair (d x y : Bytes) :
    List.intercalate d [x, y] = x ++ d ++ y := by
  simp [List.intercalate, List.intersperse, List.append_assoc]

lemma scanArgs_snd (inp : Input) (data : Bytes) (eof : Bool) :
    ((inp.scanArgs data eof).2).ArgsDelim = inp.ArgsDelim
    ∧ ((inp.scanArgs data eof).2).Stream = inp.Stream
    ∧ ((inp.scanArgs data eof).2).Literal = inp.Literal
    ∧ ((inp.scanArgs data eof).2).ReadDelim = inp.ReadDelim := by
  unfold Input.scanArgs
  by_cases h : inp.ArgsDelim.length = 0
  · simp [h]
  · simp only [h, if_false]
    cases hf : findDelim inp.ArgsDelim data with
    | some i => simp
    | none =>
      by_cases he : eof = false
      · simp [he]
      · simp [he]

lemma scanLoopF_ArgsDelim (fuel : Nat) :
    ∀ (inp : Input) (rem : Bytes),
      ((scanLoopF fuel inp rem).2).ArgsDelim = inp.ArgsDelim := by
  induction fuel with
  | zero => intro inp rem; rfl
  | succ fuel ih =>
    intro inp rem
    cases h : inp.scanArgs rem true with
    | mk res inp' =>
      have h2 : inp'.ArgsDelim = inp.ArgsDelim := by
        have h3 := (scanArgs_snd inp rem true).1
        rw [h] at h3; exact h3
      cases res with
      | more => simp [scanLoopF, h, h2]
      | tok adv t =>
        simp only [scanLoopF, h]
        rw [ih inp' (rem.drop adv), h2]
      | final t => simp [scanLoopF, h, h2]

lemma args_nil_of_stream_nil (inp : Input) (h : inp.Stream.data = []) :
    (inp.Args []).1 = [] := by
  simp only [Input.Args, List.length_nil, if_pos rfl, h]
  cases hd : inp.ArgsDelim with
  | nil => simp [scanLoopF, Input.scanArgs, hd, scanRunes]
  | cons a as => simp [scanLoopF, Input.scanArgs, hd, findDelim]

lemma scanArgs_congr {inp₁ inp₂ : Input}
    (hd : inp₁.ArgsDelim = inp₂.ArgsDelim)
    (hs : inp₁.skipToken = inp₂.skipToken) (data : Bytes) (eof : Bool) :
    (inp₁.scanArgs data eof).1 = (inp₂.scanArgs data eof).1
    ∧ ((inp₁.scanArgs data eof).2).ArgsDelim
        = ((inp₂.scanArgs data eof).2).ArgsDelim
    ∧ ((inp₁.scanArgs data eof).2).skipToken
        = ((inp₂.scanArgs data eof).2).skipToken := by
  unfold Input.scanArgs
  rw [hd]
  by_cases h : inp₂.ArgsDelim.length = 0
  · simp [h, hs, hd]
  · simp only [h, if_false]
    cases hf : findDelim inp₂.ArgsDelim data with
    | some i => simp [hd, hs]
    | none =>
      by_cases he : eof = false
      · simp [he, hd, hs]
      · simp [he, hd, hs]

lemma scanLoopF_congr (fuel : Nat) :
    ∀ (inp₁ inp₂ : Input) (rem : Bytes),
      inp₁.ArgsDelim = inp₂.ArgsDelim → inp₁.skipToken = inp₂.skipToken →
      (scanLoopF fuel inp₁ rem).1 = (scanLoopF fuel inp₂ rem).1 := by
  induction fuel with
  | zero => intro _ _ _ _ _; rfl
  | succ fuel ih =>
    intro inp₁ inp₂ rem hd hs
    obtain ⟨h1, h2, h3⟩ := scanArgs_congr hd hs rem true
    cases e₁ : inp₁.scanArgs rem true with
    | mk res₁ st₁ =>
      cases e₂ : inp₂.scanArgs rem true with
      | mk res₂ st₂ =>
        rw [e₁, e₂] at h1 h2 h3
        simp only at h1 h2 h3
        subst h1
        cases res₁ with
        | more => simp [scanLoopF, e₁, e₂]
        | tok adv t =>
          simp only [scanLoopF, e₁, e₂]
          rw [ih st₁ st₂ (rem.drop adv) h2 h3, h3]
        | final t => simp [scanLoopF, e₁, e₂, h3]

/-! ### Claims C4, C5, C6, C9, C10 -/

/-- C4: for every non-empty `args` (empty-string elements included),
`Args args` returns `args` unchanged, with the configuration — the
fallback stream included — untouched. -/
theorem claimC4 :
    ∀ (inp : Input) (args : List Bytes), args ≠ [] →
      inp.Args args = (args, inp) := by
  intro inp args h
  cases args with
  | nil => exact absurd rfl h
  | cons a t => simp [Input.Args]

theorem witC4 : input.Args [[97], [], [98]] = ([[97], [], [98]], input) :=
  claimC4 input [[97], [], [98]] (by decide)

/-- C5: `Reader []` returns the configured fallback stream itself,
unchanged; for two or more arguments the returned stream's content is
the elements joined in order with `ReadDelim` between consecutive
elements only — in particular `Reader [x, y]` reads
`x ++ ReadDelim ++ y`. -/
theorem claimC5 :
    ∀ (fs : Bytes → Option Bytes) (inp : Input),
      inp.Reader fs [] = ReaderResult.stream
      ∧ readerContent inp (inp.Reader fs []) = inp.Stream.data
      ∧ (∀ args, 2 ≤ args.length →
          readerContent inp (inp.Reader fs args)
            = List.intercalate inp.ReadDelim args)
      ∧ (∀ x y, readerContent inp (inp.Reader fs [x, y])
          = x ++ inp.ReadDelim ++ y) := by
  intro fs inp
  refine ⟨rfl, rfl, ?_, ?_⟩
  · intro args hlen
    match args with
    | [] => simp at hlen
    | [a] => simp at hlen
    | a :: b :: rest => rfl
  · intro x y
    show List.intercalate inp.ReadDelim [x, y] = x ++ inp.ReadDelim ++ y
    exact intercalate_pair _ _ _

theorem witC5 :
    readerContent input (input.Reader (fun _ => Option.none)
        [[120], [121], [122]])
      = List.intercalate input.ReadDelim [[120], [121], [122]] :=
  (claimC5 (fun _ => Option.none) input).2.2.1 [[120], [121], [122]]
    (by decide)

/-- C6: for a single argument, `Reader` opens it as a file when
`Literal` is false and the open succeeds, and otherwise — `Literal`
true, or open failure — falls back to a reader over the argument's own
text; it always returns one of these two results, never an error. -/
theorem claimC6 :
    ∀ (fs : Bytes → Option Bytes) (inp : Input) (a : Bytes),
      (inp.Literal = false → ∀ c, fs a = some c →
        inp.Reader fs [a] = ReaderResult.file c)
      ∧ (inp.Literal = false → fs a = none →
        inp.Reader fs [a] = ReaderResult.strReader a)
      ∧ (inp.Literal = true → inp.Reader fs [a] = ReaderResult.strReader a)
      ∧ (inp.Reader fs [a] = ReaderResult.strReader a
          ∨ ∃ c, fs a = some c ∧ inp.Literal = false
              ∧ inp.Reader fs [a] = ReaderResult.file c) := by
  intro fs inp a
  refine ⟨?_, ?_, ?_, ?_⟩
  · intro hl c hc; simp [Input.Reader, hl, hc]
  · intro hl hc; simp [Input.Reader, hl, hc]
  · intro hl; simp [Input.Reader, hl]
  · cases hl : inp.Literal with
    | true => exact Or.inl (by simp [Input.Reader, hl])
    | false =>
      cases hc : fs a with
      | none => exact Or.inl (by simp [Input.Reader, hl, hc])
      | some c => exact Or.inr ⟨c, rfl, rfl, by simp [Input.Reader, hl, hc]⟩

theorem witC6 :
    input.Reader (fun _ => Option.none) [[104, 105]]
      = ReaderResult.strReader [104, 105] :=
  (claimC6 (fun _ => Option.none) input [104, 105]).2.1 rfl rfl

/-- C9, counterexample to the claim as stated: on a heap holding the
arrays `[10]` and `[32]`, writing byte `120` through the copy's
`ArgsDelim` slice changes the bytes the original's `ArgsDelim` reads —
mutating a non-`Stream` field's contents of one copy does affect the
other, because a Go struct assignment copies the slice header, not the
backing array. -/
theorem claimC9_counterexample :
    HeapBytes.read
        (HeapBytes.writeByte [[10], [32]] (copyInput inV).ArgsDelim 0 120)
        inV.ArgsDelim
      ≠ HeapBytes.read [[10], [32]] inV.ArgsDelim := by
  decide

/-- C9, amended: copying an `Input` yields a value with the same
`Stream` handle and with `ArgsDelim`/`ReadDelim` slice headers aliasing
the original's backing arrays — so element-level mutation through one
copy is visible through the other; writes through a slice whose backing
array differs from another field's leave that field's contents
unchanged, and reassigning a scalar field of the copy changes only that
field. -/
theorem claimC9 :
    ∀ a : InputV,
      (copyInput a).Stream = a.Stream
      ∧ (copyInput a).ArgsDelim = a.ArgsDelim
      ∧ (copyInput a).ReadDelim = a.ReadDelim
      ∧ (∀ (h : HeapBytes) (i v : Nat),
          HeapBytes.read (HeapBytes.writeByte h (copyInput a).ArgsDelim i v)
              a.ArgsDelim
            = HeapBytes.read (HeapBytes.writeByte h a.ArgsDelim i v)
              a.ArgsDelim)
      ∧ (∀ (h : HeapBytes) (i v : Nat), a.ArgsDelim.arr ≠ a.ReadDelim.arr →
          HeapBytes.read (HeapBytes.writeByte h (copyInput a).ArgsDelim i v)
              a.ReadDelim
            = HeapBytes.read h a.ReadDelim)
      ∧ (∀ x : Bool,
          ({ copyInput a with Literal := x } : InputV).Stream = a.Stream
          ∧ ({ copyInput a with Literal := x } : InputV).ArgsDelim
              = a.ArgsDelim
          ∧ ({ copyInput a with Literal := x } : InputV).ReadDelim
              = a.ReadDelim
          ∧ ({ copyInput a with Literal := x } : InputV).skipToken
              = a.skipToken) := by
  intro a
  refine ⟨rfl, rfl, rfl, fun h i v => rfl, ?_, fun x => ⟨rfl, rfl, rfl, rfl⟩⟩
  intro h i v hne
  exact getD_set_ne [] h a.ArgsDelim.arr a.ReadDelim.arr _ hne

theorem witC9 :
    HeapBytes.read
        (HeapBytes.writeByte [[10], [32]] (copyInput inV).ArgsDelim 0 120)
        inV.ReadDelim
      = HeapBytes.read [[10], [32]] inV.ReadDelim :=
  (claimC9 inV).2.2.2.2.1 [[10], [32]] 0 120 (by decide)

/-- C10: `Fields args` is exactly `args` with its empty elements
filtered out, in order, and its result never depends on any part of the
configuration — in particular not on the fallback stream, even for
empty `args`. -/
theorem claimC10 :
    ∀ (inp : Input) (args : List Bytes),
      inp.Fields args = args.filter (fun s => decide (s ≠ []))
      ∧ (∀ inp₂ : Input, inp.Fields args = inp₂.Fields args) := by
  intro inp args
  constructor
  · show args.foldl _ [] = _
    rw [fields_foldl args []]
    rfl
  · intro inp₂; rfl

/-! ### Delimiter-mode tokenizing: `Args []` refines
`dropFinalEmpty ∘ splitAll` -/

lemma findDelim_some_ne_nil {d s : Bytes} {i : Nat}
    (h : findDelim d s = some i) : s ≠ [] := by
  intro hs; subst hs; simp [findDelim] at h

lemma hasPrefix_decomp :
    ∀ {p s : Bytes}, hasPrefix p s = true → s = p ++ s.drop p.length := by
  intro p
  induction p with
  | nil => intro s _; rfl
  | cons a as ih =>
    intro s h
    cases s with
    | nil => simp [hasPrefix] at h
    | cons b bs =>
      simp only [hasPrefix, Bool.and_eq_true, beq_iff_eq] at h
      obtain ⟨hp, hab⟩ := h
      simpa [hab] using congrArg (b :: ·) (ih hp)

lemma findDelim_hasPrefix {d : Bytes} :
    ∀ {s : Bytes} {i : Nat}, findDelim d s = some i →
      hasPrefix d (s.drop i) = true := by
  intro s
  induction s with
  | nil => intro i h; simp [findDelim] at h
  | cons b bs ih =>
    intro i h
    rw [findDelim] at h
    by_cases hp : hasPrefix d (b :: bs) = true
    · rw [if_pos hp] at h
      cases h; simpa using hp
    · rw [if_neg hp] at h
      cases hf : findDelim d bs with
      | none => rw [hf] at h; simp at h
      | some i' =>
        rw [hf] at h
        have h' : i' + 1 = i := by simpa using h
        subst h'
        simpa using ih hf

/-- A leftmost delimiter match splits the stream exactly. -/
lemma findDelim_decomp {d s : Bytes} {i : Nat} (h : findDelim d s = some i) :
    s = s.take i ++ d ++ s.drop (i + d.length) := by
  have hp := hasPrefix_decomp (findDelim_hasPrefix h)
  calc s = s.take i ++ s.drop i := (List.take_append_drop i s).symm
    _ = s.take i ++ (d ++ (s.drop i).drop d.length) := by rw [← hp]
    _ = s.take i ++ d ++ s.drop (i + d.length) := by
        rw [List.drop_drop, List.append_assoc]

lemma splitAllF_ne_nil (fuel : Nat) (d s : Bytes) : splitAllF fuel d s ≠ [] := by
  cases fuel with
  | zero => simp [splitAllF]
  | succ fuel =>
    rw [splitAllF]
    cases findDelim d s <;> simp

lemma dropFinalEmpty_cons (x : Bytes) {l : List Bytes} (h : l ≠ []) :
    dropFinalEmpty (x :: l) = x :: dropFinalEmpty l := by
  cases l with
  | nil => exact absurd rfl h
  | cons y l' => rfl

/-- In delimiter mode (`ArgsDelim ≠ []`), the scan loop produces exactly
the computed token sequence with its final token discarded when empty. -/
lemma scanLoopF_eq_split (fuel : Nat) :
    ∀ (inp : Input) (rem : Bytes),
      rem.length < fuel → inp.ArgsDelim ≠ [] → inp.skipToken = false →
      (scanLoopF fuel inp rem).1
        = dropFinalEmpty (splitAllF fuel inp.ArgsDelim rem) := by
  induction fuel with
  | zero => intro _ _ h; omega
  | succ fuel ih =>
    intro inp rem hlen hd hs
    have hn : ¬ inp.ArgsDelim.length = 0 := by
      simpa using fun h => hd (List.length_eq_zero.mp h)
    cases hf : findDelim inp.ArgsDelim rem with
    | none =>
      have hsa : inp.scanArgs rem true
          = (ScanResult.final rem, { inp with skipToken := rem.isEmpty }) := by
        simp [Input.scanArgs, hn, hf]
      simp only [scanLoopF, hsa, splitAllF, hf]
      by_cases hr : rem = []
      · subst hr; simp [dropFinalEmpty]
      · simp [hr, dropFinalEmpty, List.isEmpty_iff]
    | some i =>
      have hone : 1 ≤ rem.length :=
        List.length_pos.mpr (findDelim_some_ne_nil hf)
      have hn1 : 1 ≤ inp.ArgsDelim.length := List.length_pos.mpr hd
      have hsa : inp.scanArgs rem true
          = (ScanResult.tok (i + inp.ArgsDelim.length)
              (rem.take (if 0 < i ∧ rem.getD (i - 1) 0 = 13
                  ∧ inp.ArgsDelim.length = 1 ∧ inp.ArgsDelim.getD 0 0 = 10
                then i - 1 else i)), inp) := by
        simp [Input.scanArgs, hn, hf]
      simp only [scanLoopF, hsa, splitAllF, hf, hs, Bool.false_eq_true,
        if_false]
      rw [ih inp (rem.drop (i + inp.ArgsDelim.length))
        (by simp only [List.length_drop]; omega) hd hs]
      rw [dropFinalEmpty_cons _ (splitAllF_ne_nil fuel _ _)]

/-- C1: with a non-empty delimiter, `Args []` returns the computed token
sequence of the stream with exactly its final token discarded when that
token is empty; every other (interior) empty token is preserved in
order.  In particular `"a\nb\n"` yields `["a","b"]` and `"a\n\nb"`
yields `["a","","b"]`. -/
theorem claimC1 :
    (∀ d s, d ≠ [] → tokenize d s = dropFinalEmpty (splitAll d s))
    ∧ tokenize [10] [97, 10, 98, 10] = [[97], [98]]
    ∧ tokenize [10] [97, 10, 10, 98] = [[97], [], [98]] := by
  refine ⟨?_, by decide, by decide⟩
  intro d s hd
  show (((mkInput d s).Args []).1) = _
  simp only [Input.Args, List.length_nil, if_pos rfl]
  exact scanLoopF_eq_split (s.length + 1) _ s (Nat.lt_succ_self _) hd rfl

theorem witC1 :
    tokenize [1, 2] [3, 1, 2] = dropFinalEmpty (splitAll [1, 2] [3, 1, 2]) :=
  claimC1.1 [1, 2] [3, 1, 2] (by decide)

/-! ### Carriage-return handling (claim C2) -/

/-- The carriage-return exclusion can only fire when the delimiter is
exactly the single byte `"\n"`. -/
lemma cr_cond_false {d : Bytes} (hd10 : d ≠ [10]) (i : Nat) (s : Bytes) :
    ¬ (0 < i ∧ s.getD (i - 1) 0 = 13 ∧ d.length = 1 ∧ d.getD 0 0 = 10) := by
  rintro ⟨-, -, h1, h2⟩
  cases d with
  | nil => simp at h1
  | cons a t =>
    cases t with
    | nil =>
      simp only [List.getD_cons_zero] at h2
      exact hd10 (by rw [h2])
    | cons b t' => simp at h1

lemma intercalate_cons_ne_nil (d a : Bytes) {l : List Bytes} (h : l ≠ []) :
    List.intercalate d (a :: l) = a ++ d ++ List.intercalate d l := by
  cases l with
  | nil => exact absurd rfl h
  | cons b l' =>
    simp [List.intercalate, List.intersperse_cons_cons, List.append_assoc]

/-- For any non-empty delimiter other than `"\n"`, rejoining the
computed tokens with the delimiter reconstructs the stream byte for
byte: no byte of any token is ever stripped. -/
lemma splitAllF_verbatim (fuel : Nat) :
    ∀ (d s : Bytes), s.length < fuel → d ≠ [] → d ≠ [10] →
      List.intercalate d (splitAllF fuel d s) = s := by
  induction fuel with
  | zero => intro _ _ h; omega
  | succ fuel ih =>
    intro d s hlen hd hd10
    cases hf : findDelim d s with
    | none => simp [splitAllF, hf, List.intercalate]
    | some i =>
      have hone : 1 ≤ s.length := List.length_pos.mpr (findDelim_some_ne_nil hf)
      have hn1 : 1 ≤ d.length := List.length_pos.mpr hd
      simp only [splitAllF, hf]
      rw [if_neg (cr_cond_false hd10 i s)]
      rw [intercalate_cons_ne_nil d _ (splitAllF_ne_nil fuel _ _)]
      rw [ih d (s.drop (i + d.length))
        (by simp only [List.length_drop]; omega) hd hd10]
      exact (findDelim_decomp hf).symm

lemma splitAllF_fuel (f₁ : Nat) :
    ∀ (f₂ : Nat) (d s : Bytes), s.length < f₁ → s.length < f₂ → d ≠ [] →
      splitAllF f₁ d s = splitAllF f₂ d s := by
  induction f₁ with
  | zero => intro _ _ _ h; omega
  | succ f₁ ih =>
    intro f₂ d s h1 h2 hd
    cases f₂ with
    | zero => omega
    | succ f₂ =>
      cases hf : findDelim d s with
      | none => simp only [splitAllF, hf]
      | some i =>
        have hone : 1 ≤ s.length :=
          List.length_pos.mpr (findDelim_some_ne_nil hf)
        have hn1 : 1 ≤ d.length := List.length_pos.mpr hd
        have hrec := ih f₂ d (s.drop (i + d.length))
          (by simp only [List.length_drop]; omega)
          (by simp only [List.length_drop]; omega) hd
        simp only [splitAllF, hf]
        rw [hrec]

lemma findDelim_single_append {b : Nat} :
    ∀ {u : Bytes}, b ∉ u → ∀ w : Bytes,
      findDelim [b] (u ++ b :: w) = some u.length := by
  intro u
  induction u with
  | nil =>
    intro _ w
    simp [findDelim, hasPrefix]
  | cons a t ih =>
    intro h w
    have hne : ¬ (b = a) := fun hh => h (hh ▸ List.mem_cons_self a t)
    have hmem : b ∉ t := fun hh => h (List.mem_cons_of_mem a hh)
    rw [List.cons_append, findDelim,
      if_neg (by simp [hasPrefix, hne]), ih hmem w]
    rfl

/-- When the delimiter is exactly `"\n"` and the byte before the first
newline is a carriage return, that carriage return — and only it — is
excluded from the emitted token. -/
lemma splitAll_cr (u v : Bytes) (h : (10 : Nat) ∉ u) :
    splitAll [10] (u ++ 13 :: 10 :: v) = u :: splitAll [10] v := by
  have h13 : (10 : Nat) ∉ u ++ [13] := by
    intro hm
    rcases List.mem_append.mp hm with hm | hm
    · exact h hm
    · simp at hm
  have hf : findDelim [10] (u ++ 13 :: 10 :: v) = some (u.length + 1) := by
    have h0 := findDelim_single_append h13 v
    simpa using h0
  have hlen : (u ++ 13 :: 10 :: v).length = u.length + 2 + v.length := by
    simp; omega
  have hgd : (u ++ 13 :: 10 :: v).getD (u.length + 1 - 1) 0 = 13 := by
    rw [Nat.add_sub_cancel, List.getD_append_right u _ 0 u.length le_rfl,
      Nat.sub_self]
    rfl
  have htake : (u ++ 13 :: 10 :: v).take (u.length + 1 - 1) = u := by
    rw [Nat.add_sub_cancel]
    exact List.take_left u (13 :: 10 :: v)
  have hdrop : (u ++ 13 :: 10 :: v).drop (u.length + 1 + 1) = v := by
    have he : u ++ 13 :: 10 :: v = (u ++ [13, 10]) ++ v := by
      simp
    rw [he]
    have hl : u.length + 1 + 1 = (u ++ [13, 10]).length := by simp
    rw [hl, List.drop_left]
  rw [splitAll]
  simp only [splitAllF, hf, List.length_cons, List.length_nil, Nat.zero_add,
    List.getD_cons_zero]
  rw [if_pos (by refine ⟨Nat.succ_pos _, hgd, ?_, ?_⟩ <;> simp), htake, hdrop]
  have hfuel : splitAllF (u ++ 13 :: 10 :: v).length [10] v
      = splitAllF (v.length + 1) [10] v := by
    apply splitAllF_fuel
    · rw [hlen]; omega
    · omega
    · simp
  rw [hfuel]
  rfl

/-- C2: a carriage return immediately preceding a match is excluded from
the emitted token exactly when the delimiter is the single byte `"\n"`
(`"a\r\nb"` tokenizes to `["a","b"]`, and in general the byte before the
newline is dropped when it is `13`); for every other non-empty
delimiter, rejoining the computed tokens with the delimiter restores the
stream verbatim — no other byte is ever stripped. -/
theorem claimC2 :
    tokenize [10] [97, 13, 10, 98] = [[97], [98]]
    ∧ (∀ d s, d ≠ [] → tokenize d s = dropFinalEmpty (splitAll d s))
    ∧ (∀ d s, d ≠ [] → d ≠ [10] →
        List.intercalate d (splitAll d s) = s)
    ∧ (∀ u v, (10 : Nat) ∉ u →
        splitAll [10] (u ++ 13 :: 10 :: v) = u :: splitAll [10] v) := by
  refine ⟨by decide, ?_, ?_, splitAll_cr⟩
  · intro d s hd
    show (((mkInput d s).Args []).1) = _
    simp only [Input.Args, List.length_nil, if_pos rfl]
    exact scanLoopF_eq_split (s.length + 1) _ s (Nat.lt_succ_self _) hd rfl
  · intro d s hd hd10
    exact splitAllF_verbatim (s.length + 1) d s (Nat.lt_succ_self _) hd hd10

theorem witC2 :
    List.intercalate [32] (splitAll [32] [97, 32, 32, 98])
      = [97, 32, 32, 98] :=
  claimC2.2.2.1 [32] [97, 32, 32, 98] (by decide) (by decide)

/-! ### Rune-mode tokenizing (claim C3): with the empty delimiter,
`Args []` emits one token per Unicode code point -/

lemma acceptRange_two {b0 : Nat} (h1 : 0xC2 ≤ b0) (h2 : b0 ≤ 0xDF) :
    acceptRange b0 = some (0x80, 0xBF) := by
  unfold acceptRange
  split_ifs <;> first | rfl | (exfalso; omega)

lemma acceptRange_e1_ec {b0 : Nat} (h1 : 0xE1 ≤ b0) (h2 : b0 ≤ 0xEC) :
    acceptRange b0 = some (0x80, 0xBF) := by
  unfold acceptRange
  split_ifs <;> first | rfl | (exfalso; omega)

lemma acceptRange_ee_ef {b0 : Nat} (h1 : 0xEE ≤ b0) (h2 : b0 ≤ 0xEF) :
    acceptRange b0 = some (0x80, 0xBF) := by
  unfold acceptRange
  split_ifs <;> first | rfl | (exfalso; omega)

lemma acceptRange_f1_f3 {b0 : Nat} (h1 : 0xF1 ≤ b0) (h2 : b0 ≤ 0xF3) :
    acceptRange b0 = some (0x80, 0xBF) := by
  unfold acceptRange
  split_ifs <;> first | rfl | (exfalso; omega)

/-- The accept range of the leading byte of `utf8Encode c` accepts the
encoding's second byte, for every valid multi-byte scalar. -/
lemma acceptRange_encode_head {c : Nat}
    (h1 : ¬ c < 0x80) (h2 : c < 0x800) :
    acceptRange (0xC0 + c / 0x40) = some (0x80, 0xBF) :=
  acceptRange_two (by omega) (by omega)

lemma acceptRange_encode_head3 {c : Nat} (hv : ValidScalar c)
    (h2 : ¬ c < 0x800) (h3 : c < 0x10000) :
    ∃ lo hi, acceptRange (0xE0 + c / 0x1000) = some (lo, hi)
      ∧ lo ≤ 0x80 + c / 0x40 % 0x40 ∧ 0x80 + c / 0x40 % 0x40 ≤ hi := by
  obtain ⟨hlt, hsur⟩ := hv
  by_cases ha : c < 0x1000
  · refine ⟨0xA0, 0xBF, ?_, by omega, by omega⟩
    have he : 0xE0 + c / 0x1000 = 0xE0 := by omega
    rw [he]; decide
  · by_cases hb : c < 0xD000
    · exact ⟨0x80, 0xBF, acceptRange_e1_ec (by omega) (by omega),
        by omega, by omega⟩
    · by_cases hc2 : c < 0xE000
      · refine ⟨0x80, 0x9F, ?_, by omega, by omega⟩
        have he : 0xE0 + c / 0x1000 = 0xED := by omega
        rw [he]; decide
      · exact ⟨0x80, 0xBF, acceptRange_ee_ef (by omega) (by omega),
          by omega, by omega⟩

lemma acceptRange_encode_head4 {c : Nat} (hv : ValidScalar c)
    (h3 : ¬ c < 0x10000) :
    ∃ lo hi, acceptRange (0xF0 + c / 0x40000) = some (lo, hi)
      ∧ lo ≤ 0x80 + c / 0x1000 % 0x40 ∧ 0x80 + c / 0x1000 % 0x40 ≤ hi := by
  obtain ⟨hlt, hsur⟩ := hv
  by_cases ha : c < 0x40000
  · refine ⟨0x90, 0xBF, ?_, by omega, by omega⟩
    have he : 0xF0 + c / 0x40000 = 0xF0 := by omega
    rw [he]; decide
  · by_cases hb : c < 0x100000
    · exact ⟨0x80, 0xBF, acceptRange_f1_f3 (by omega) (by omega),
        by omega, by omega⟩
    · refine ⟨0x80, 0x8F, ?_, by omega, by omega⟩
      have he : 0xF0 + c / 0x40000 = 0xF4 := by omega
      rw [he]; decide

/-- Go `utf8.DecodeRune` consumes exactly the encoding of a valid
scalar at the head of its input. -/
lemma decodeRuneWidth_encode {c : Nat} (hv : ValidScalar c) (rest : Bytes) :
    decodeRuneWidth (utf8Encode c ++ rest) = (utf8Encode c).length := by
  have hlt := hv.1
  by_cases h1 : c < 0x80
  · have e : utf8Encode c = [c] := by rw [utf8Encode, if_pos h1]
    rw [e]
    simp only [List.cons_append, List.nil_append, decodeRuneWidth,
      List.length_cons, List.length_nil]
    rw [if_pos h1]
  · by_cases h2 : c < 0x800
    · have e : utf8Encode c = [0xC0 + c / 0x40, 0x80 + c % 0x40] := by
        rw [utf8Encode, if_neg h1, if_pos h2]
      rw [e]
      simp only [List.cons_append, List.nil_append, decodeRuneWidth,
        acceptRange_encode_head h1 h2, List.length_cons, List.length_nil]
      split_ifs <;> omega
    · by_cases h3 : c < 0x10000
      · have e : utf8Encode c
            = [0xE0 + c / 0x1000, 0x80 + c / 0x40 % 0x40, 0x80 + c % 0x40] := by
          rw [utf8Encode, if_neg h1, if_neg h2, if_pos h3]
        obtain ⟨lo, hi, hacc, hlo, hhi⟩ := acceptRange_encode_head3 hv h2 h3
        rw [e]
        simp only [List.cons_append, List.nil_append, decodeRuneWidth, hacc,
          List.length_cons, List.length_nil]
        split_ifs <;> omega
      · have e : utf8Encode c
            = [0xF0 + c / 0x40000, 0x80 + c / 0x1000 % 0x40,
                0x80 + c / 0x40 % 0x40, 0x80 + c % 0x40] := by
          rw [utf8Encode, if_neg h1, if_neg h2, if_neg h3]
        obtain ⟨lo, hi, hacc, hlo, hhi⟩ := acceptRange_encode_head4 hv h3
        rw [e]
        simp only [List.cons_append, List.nil_append, decodeRuneWidth, hacc,
          List.length_cons, List.length_nil]
        split_ifs <;> omega

lemma utf8Encode_ne_nil (c : Nat) : utf8Encode c ≠ [] := by
  unfold utf8Encode
  split_ifs <;> simp

/-- `bufio.ScanRunes` emits exactly the encoding of the leading valid
scalar as one token, consuming its bytes. -/
lemma scanRunes_encode {c : Nat} (hv : ValidScalar c) (rest : Bytes) :
    scanRunes (utf8Encode c ++ rest) true
      = ScanResult.tok (utf8Encode c).length (utf8Encode c) := by
  have hw := decodeRuneWidth_encode hv rest
  by_cases h1 : c < 0x80
  · have e : utf8Encode c = [c] := by rw [utf8Encode, if_pos h1]
    rw [e]
    simp only [List.cons_append, List.nil_append, scanRunes,
      List.length_cons, List.length_nil]
    rw [if_pos h1]
  · obtain ⟨b0, tail, he, hb0⟩ :
        ∃ b0 tail, utf8Encode c = b0 :: tail ∧ 0x80 ≤ b0 := by
      by_cases h2 : c < 0x800
      · exact ⟨_, _, by rw [utf8Encode, if_neg h1, if_pos h2], by omega⟩
      · by_cases h3 : c < 0x10000
        · exact ⟨_, _, by rw [utf8Encode, if_neg h1, if_neg h2, if_pos h3],
            by omega⟩
        · exact ⟨_, _, by rw [utf8Encode, if_neg h1, if_neg h2, if_neg h3],
            by omega⟩
    have hlen2 : 2 ≤ (utf8Encode c).length := by
      unfold utf8Encode
      split_ifs <;> first | omega | simp
    rw [he] at hw hlen2 ⊢
    rw [List.cons_append] at hw
    simp only [List.length_cons] at hlen2
    simp only [List.cons_append, scanRunes]
    rw [if_neg (by omega),
      if_pos (by rw [hw]; simp only [List.length_cons]; omega), hw]
    have htk : (b0 :: (tail ++ rest)).take (b0 :: tail).length
        = b0 :: tail := by
      have h0 := List.take_left (b0 :: tail) rest
      simp only [List.length_cons, List.cons_append] at h0 ⊢
      exact h0
    rw [htk]

/-- With the empty delimiter, the scan loop over the encoding of a
sequence of valid scalars emits exactly one token per code point. -/
lemma scanLoopF_runes :
    ∀ (cs : List Nat) (fuel : Nat) (inp : Input),
      ((cs.map utf8Encode).flatten).length < fuel → inp.ArgsDelim = [] →
      inp.skipToken = false → (∀ c ∈ cs, ValidScalar c) →
      (scanLoopF fuel inp ((cs.map utf8Encode).flatten)).1
        = cs.map utf8Encode := by
  intro cs
  induction cs with
  | nil =>
    intro fuel inp hf hd hs hv
    cases fuel with
    | zero => exact absurd hf (by omega)
    | succ fuel => simp [scanLoopF, Input.scanArgs, hd, scanRunes]
  | cons c cs ih =>
    intro fuel inp hf hd hs hv
    cases fuel with
    | zero => exact absurd hf (by omega)
    | succ fuel =>
      have hjoin : ((c :: cs).map utf8Encode).flatten
          = utf8Encode c ++ (cs.map utf8Encode).flatten := by simp
      rw [hjoin] at hf ⊢
      have hsa : inp.scanArgs (utf8Encode c ++ (cs.map utf8Encode).flatten)
            true
          = (ScanResult.tok (utf8Encode c).length (utf8Encode c), inp) := by
        simp [Input.scanArgs, hd, scanRunes_encode (hv c (by simp))]
      simp only [scanLoopF, hsa, hs, Bool.false_eq_true, if_false]
      rw [List.drop_left]
      have h1 : 1 ≤ (utf8Encode c).length :=
        List.length_pos.mpr (utf8Encode_ne_nil c)
      have hrest := ih fuel inp
        (by simp only [List.length_append] at hf; omega) hd hs
        (fun c' h' => hv c' (List.mem_cons_of_mem _ h'))
      rw [hrest]
      simp

/-- C3: with an empty `ArgsDelim`, `Args []` splits the fallback stream
into successive Unicode code points — for any sequence of scalar values,
tokenizing the concatenation of their UTF-8 encodings yields exactly one
token per code point (not per raw byte), and e.g. `"abc"` yields
`["a","b","c"]` while the two code points of `"H♥"` (four bytes) yield
two tokens. -/
theorem claimC3 :
    tokenize [] [97, 98, 99] = [[97], [98], [99]]
    ∧ tokenize [] [72, 226, 153, 165] = [[72], [226, 153, 165]]
    ∧ (∀ cs : List Nat, (∀ c ∈ cs, ValidScalar c) →
        tokenize [] ((cs.map utf8Encode).flatten) = cs.map utf8Encode) := by
  refine ⟨by decide, by decide, ?_⟩
  intro cs hv
  show (((mkInput [] _).Args []).1) = _
  simp only [Input.Args, List.length_nil, if_pos rfl]
  exact scanLoopF_runes cs _ _ (Nat.lt_succ_self _) rfl rfl hv

theorem witC3 :
    tokenize [] (([72, 0x2665].map utf8Encode).flatten)
      = [72, 0x2665].map utf8Encode :=
  claimC3.2.2 [72, 0x2665] (by decide)

/-! ### Claims C7 and C8 -/

/-- C7: an I/O error on the fallback stream is never surfaced by
`Args []`: the token sequence is the same whether the stream's bytes end
with a read error or with a normal end-of-stream (`bufio.Scanner` hands
the split function `atEOF = true` in both cases, returns `false` from
`Scan` once the buffered bytes are consumed, and `Args` never consults
`Scanner.Err`), so token production just terminates where the data
ends. -/
theorem claimC7 :
    ∀ (inp : Input) (e : Bool),
      (({ inp with Stream := ⟨inp.Stream.data, e⟩ } : Input).Args []).1
        = (({ inp with Stream := ⟨inp.Stream.data, false⟩ } : Input).Args
            []).1 := by
  intro inp e
  simp only [Input.Args, List.length_nil, if_pos rfl]
  exact scanLoopF_congr _ _ _ _ rfl rfl

/-- C8: reading the fallback stream in `Args []` is destructive and
one-shot, and the suppression flag is recomputed on every call: the
returned configuration's stream is exhausted, a second `Args []` call on
that configuration yields the empty sequence, and the token sequence of
a call never depends on the `skipToken` value a previous call left
behind. -/
theorem claimC8 :
    ∀ (inp : Input) (b : Bool),
      ((inp.Args []).2).Stream.data = []
      ∧ (((inp.Args []).2).Args []).1 = []
      ∧ (({ inp with skipToken := b } : Input).Args []).1
          = (inp.Args []).1 := by
  intro inp b
  refine ⟨?_, ?_, ?_⟩
  · simp [Input.Args]
  · exact args_nil_of_stream_nil _ (by simp [Input.Args])
  · rfl

end Clin
